import Mathlib

/-!
# Verification of the log-normal view-count prediction-interval estimator

Shallow embedding of `_predict_next_video_views`
(src/submissions/BrandView-AI/src/tools/helper/helper.py, lines 125-159)
over exact real arithmetic, together with models of the two library
primitives it calls:

* `stats.lognorm.fit(views, floc=0)` — scipy computes this fixed-location
  fit in closed form: `scale = exp(mean(log data))` and
  `shape = sqrt(mean((log data - log scale)^2))` (scipy
  `_continuous_distns.py`, `lognorm_gen.fit`, fixed-`floc` branch).
* `stats.lognorm.ppf(q, s, loc, scale)` — scipy's generic `ppf`: when the
  argument check fails (it requires `s > 0` and `scale > 0`) every output
  is NaN; otherwise `q = 0` maps to the left support edge `loc`, `q = 1` maps
  to +inf, `q` outside `[0, 1]` maps to NaN, and `0 < q < 1` maps to
  `loc + scale * exp(s * ndtri q)` where `ndtri` is the standard normal
  quantile function.

Python floats are modelled by `XReal` (a real number, one of the two
infinities, or NaN).  The standard normal quantile `ndtri` is a
transcendental library primitive; it is a parameter of the embedding, and
theorems that need facts about it assume `IsNormQuantile` (strictly
increasing on (0,1) and 0 at 1/2), which the true `ndtri` satisfies.
-/

noncomputable section

open Classical Real

/-- A Python float value: finite real, +inf, -inf, or NaN. -/
inductive XReal where
  | fin : ℝ → XReal
  | pinf : XReal
  | ninf : XReal
  | nan : XReal

/-- A bound is finite when it is an ordinary real number (not ±inf, not NaN). -/
def XReal.isFinite : XReal → Prop
  | .fin _ => True
  | _ => False

/-- Result of a call to `_predict_next_video_views`: a raised `ValueError`,
a returned pair of bounds, or Python's implicit `None` (control falling off
the end of the function). -/
inductive PredictResult where
  | valueError : String → PredictResult
  | pair : XReal → XReal → PredictResult
  | nonePy : PredictResult

/-- `np.mean(np.log(data))` — the mean of the logs of the data. -/
def logMean (xs : List ℝ) : ℝ :=
  (xs.map Real.log).sum / (xs.length : ℝ)

/-- scipy `lognorm.fit` fixed-`floc` branch, `get_scale(loc)` with `loc = 0`:
`np.exp(np.mean(np.log(data - loc)))`. -/
def get_scale (xs : List ℝ) : ℝ :=
  Real.exp (logMean xs)

/-- scipy `lognorm.fit` fixed-`floc` branch, `get_shape(loc, scale)` with
`loc = 0`: `np.sqrt(np.mean((np.log(data - loc) - np.log(scale))**2))`. -/
def get_shape (xs : List ℝ) : ℝ :=
  Real.sqrt ((xs.map (fun x => (Real.log x - Real.log (get_scale xs)) ^ 2)).sum
    / (xs.length : ℝ))

/-- `stats.lognorm.fit(views, floc=0)`: returns `(shape, loc, scale)` with the
location fixed at exactly 0. -/
def lognorm_fit_floc0 (xs : List ℝ) : ℝ × ℝ × ℝ :=
  (get_shape xs, 0, get_scale xs)

/-- `stats.lognorm.ppf(q, s, loc=loc, scale=scale)`: scipy's generic `ppf` for
the log-normal.  The argument check `s > 0 ∧ scale > 0` failing makes the
output NaN; `q = 0` gives the left support edge `0 * scale + loc = loc`;
`q = 1` gives +inf; `q` outside `[0,1]` gives NaN; interior `q` gives
`lognorm._ppf(q, s) * scale + loc = loc + scale * exp(s * ndtri q)`. -/
def lognorm_ppf (ndtri : ℝ → ℝ) (q s loc scale : ℝ) : XReal :=
  if ¬(0 < s ∧ 0 < scale) then .nan
  else if q = 0 then .fin loc
  else if q = 1 then .pinf
  else if 0 < q ∧ q < 1 then .fin (loc + scale * Real.exp (s * ndtri q))
  else .nan

/-- Embedding of `_predict_next_video_views(historical_views,
confidence_level, interval_type)` (helper.py lines 125-159), parametrised by
the library's standard normal quantile routine `ndtri`. -/
def _predict_next_video_views (ndtri : ℝ → ℝ) (historical_views : List ℝ)
    (confidence_level : ℝ) (interval_type : String) : PredictResult :=
  if historical_views = [] then
    .valueError "Historical views list cannot be empty"
  else if ∃ v ∈ historical_views, v ≤ 0 then
    .valueError "All view counts must be positive to fit a log-normal"
  else
    let shape := (lognorm_fit_floc0 historical_views).1
    let loc := (lognorm_fit_floc0 historical_views).2.1
    let scale := (lognorm_fit_floc0 historical_views).2.2
    let alpha := 1 - confidence_level
    if interval_type = "lower" then
      .pair (lognorm_ppf ndtri alpha shape loc scale) .pinf
    else if interval_type = "upper" then
      .pair .ninf (lognorm_ppf ndtri confidence_level shape loc scale)
    else if interval_type = "two-sided" then
      .pair (lognorm_ppf ndtri (alpha / 2) shape loc scale)
            (lognorm_ppf ndtri (1 - alpha / 2) shape loc scale)
    else
      .nonePy

/-- The properties of the standard normal quantile function the theorems
rely on: strictly increasing on (0,1), and equal to 0 at probability 1/2. -/
def IsNormQuantile (f : ℝ → ℝ) : Prop :=
  StrictMonoOn f (Set.Ioo (0 : ℝ) 1) ∧ f (1 / 2) = 0

/-- A concrete function satisfying `IsNormQuantile`, used to instantiate
witnesses (the true `ndtri` also satisfies it). -/
def phi0 : ℝ → ℝ := fun p => p - 1 / 2

/-- A second function agreeing with `phi0` on (0,1) but not elsewhere. -/
def phi1 : ℝ → ℝ := fun p => if 0 < p ∧ p < 1 then p - 1 / 2 else p

/-- Density of the two-parameter log-normal (location 0) with log-space mean
`μ` and log-space standard deviation `σ`, at `x`:
`exp(-(log x - μ)^2 / (2 σ^2)) / (x σ sqrt(2 π))`. -/
def lognormPdf (μ σ x : ℝ) : ℝ :=
  Real.exp (-(Real.log x - μ) ^ 2 / (2 * σ ^ 2)) / (x * σ * Real.sqrt (2 * Real.pi))

/-- Likelihood of an observation series under the location-0 log-normal with
parameters `(μ, σ)`: the product of the densities. -/
def likelihood (xs : List ℝ) (μ σ : ℝ) : ℝ :=
  (xs.map (lognormPdf μ σ)).prod

/-- Population mean of a series (`np.mean`). -/
def seriesMean (xs : List ℝ) : ℝ :=
  xs.sum / (xs.length : ℝ)

/-- Population variance of a series: mean squared deviation from the mean
(the "variance" of the spec's monotonicity property). -/
def seriesVariance (xs : List ℝ) : ℝ :=
  (xs.map (fun x => (x - seriesMean xs) ^ 2)).sum / (xs.length : ℝ)

/-- The spec's concrete claim for the constant series: the returned result is
a pair of finite bounds both within floating-point tolerance of `v`. -/
def collapsesTo (r : PredictResult) (v : ℝ) : Prop :=
  ∃ a b : ℝ, r = .pair (.fin a) (.fin b) ∧ |a - v| ≤ 1 ∧ |b - v| ≤ 1

/-- The claim that every call on a valid series with an out-of-range
confidence level produces a pair one of whose bounds is non-finite
(infinite or NaN), and never a `ValueError`. -/
def outOfRangeYieldsNonFinite : Prop :=
  ∀ ndtri : ℝ → ℝ, IsNormQuantile ndtri →
    ∀ (xs : List ℝ) (c : ℝ) (m : String),
      xs ≠ [] → (∀ v ∈ xs, 0 < v) → (c ≤ 0 ∨ 1 ≤ c) →
      (m = "lower" ∨ m = "upper" ∨ m = "two-sided") →
      (∀ msg, _predict_next_video_views ndtri xs c m ≠ .valueError msg) ∧
      ∃ lo hi, _predict_next_video_views ndtri xs c m = .pair lo hi ∧
        (¬ lo.isFinite ∨ ¬ hi.isFinite)

/-! ## Basic facts about the embedded definitions -/

theorem not_exists_nonpos {xs : List ℝ} (hpos : ∀ v ∈ xs, 0 < v) :
    ¬ ∃ v ∈ xs, v ≤ 0 := by
  rintro ⟨v, hv, hle⟩
  exact absurd (hpos v hv) (not_lt.mpr hle)

theorem get_scale_pos (xs : List ℝ) : 0 < get_scale xs :=
  Real.exp_pos _

theorem get_shape_nonneg (xs : List ℝ) : 0 ≤ get_shape xs :=
  Real.sqrt_nonneg _

theorem log_get_scale (xs : List ℝ) : Real.log (get_scale xs) = logMean xs :=
  Real.log_exp _

/-- Behaviour on the `interval_type = "lower"` branch for a valid series. -/
theorem predict_lower_eq (ndtri : ℝ → ℝ) (xs : List ℝ) (c : ℝ)
    (hne : xs ≠ []) (hpos : ∀ v ∈ xs, 0 < v) :
    _predict_next_video_views ndtri xs c "lower" =
      .pair (lognorm_ppf ndtri (1 - c) (get_shape xs) 0 (get_scale xs)) .pinf := by
  simp [_predict_next_video_views, hne, not_exists_nonpos hpos, lognorm_fit_floc0]

/-- Behaviour on the `interval_type = "upper"` branch for a valid series. -/
theorem predict_upper_eq (ndtri : ℝ → ℝ) (xs : List ℝ) (c : ℝ)
    (hne : xs ≠ []) (hpos : ∀ v ∈ xs, 0 < v) :
    _predict_next_video_views ndtri xs c "upper" =
      .pair .ninf (lognorm_ppf ndtri c (get_shape xs) 0 (get_scale xs)) := by
  simp [_predict_next_video_views, hne, not_exists_nonpos hpos, lognorm_fit_floc0]

/-- Behaviour on the `interval_type = "two-sided"` branch for a valid series. -/
theorem predict_two_sided_eq (ndtri : ℝ → ℝ) (xs : List ℝ) (c : ℝ)
    (hne : xs ≠ []) (hpos : ∀ v ∈ xs, 0 < v) :
    _predict_next_video_views ndtri xs c "two-sided" =
      .pair (lognorm_ppf ndtri ((1 - c) / 2) (get_shape xs) 0 (get_scale xs))
        (lognorm_ppf ndtri (1 - (1 - c) / 2) (get_shape xs) 0 (get_scale xs)) := by
  simp [_predict_next_video_views, hne, not_exists_nonpos hpos, lognorm_fit_floc0]

/-- Any other `interval_type` string falls off the end of the function. -/
theorem predict_none_eq (ndtri : ℝ → ℝ) (xs : List ℝ) (c : ℝ) (m : String)
    (hne : xs ≠ []) (hpos : ∀ v ∈ xs, 0 < v)
    (h1 : m ≠ "lower") (h2 : m ≠ "upper") (h3 : m ≠ "two-sided") :
    _predict_next_video_views ndtri xs c m = .nonePy := by
  simp [_predict_next_video_views, hne, not_exists_nonpos hpos, h1, h2, h3]

/-! ## List arithmetic lemmas -/

theorem list_sum_nonneg {l : List ℝ} (h : ∀ x ∈ l, 0 ≤ x) : 0 ≤ l.sum := by
  induction l with
  | nil => simp
  | cons a t ih =>
    have ha : 0 ≤ a := h a (by simp)
    have ht : 0 ≤ t.sum := ih (fun x hx => h x (by simp [hx]))
    simp only [List.sum_cons]
    linarith

theorem list_sum_all_zero {l : List ℝ} (h : ∀ x ∈ l, 0 ≤ x) (hs : l.sum = 0) :
    ∀ x ∈ l, x = 0 := by
  induction l with
  | nil => simp
  | cons a t ih =>
    have ha : 0 ≤ a := h a (by simp)
    have ht : ∀ x ∈ t, 0 ≤ x := fun x hx => h x (by simp [hx])
    have hts : 0 ≤ t.sum := list_sum_nonneg ht
    have hsum : a + t.sum = 0 := by simpa using hs
    intro x hx
    rcases List.mem_cons.mp hx with h1 | h1
    · subst h1; linarith
    · exact ih ht (by linarith) x h1

theorem list_sum_const {l : List ℝ} {y : ℝ} (h : ∀ x ∈ l, x = y) :
    l.sum = (l.length : ℝ) * y := by
  induction l with
  | nil => simp
  | cons a t ih =>
    have ha : a = y := h a (by simp)
    have ht := ih (fun x hx => h x (by simp [hx]))
    simp only [List.sum_cons, List.length_cons, ha, ht]
    push_cast
    ring

/-! ## Positivity of the fitted shape for non-degenerate series -/

/-- If the series has two distinct (positive) members, the fitted shape is
strictly positive. -/
theorem get_shape_pos {xs : List ℝ} {a b : ℝ} (ha : a ∈ xs) (hb : b ∈ xs)
    (hab : a ≠ b) (hpos : ∀ v ∈ xs, 0 < v) : 0 < get_shape xs := by
  unfold get_shape
  rw [Real.sqrt_pos]
  have hlen : 0 < (xs.length : ℝ) := by
    have hne : xs ≠ [] := by rintro rfl; simp at ha
    exact_mod_cast List.length_pos.mpr hne
  apply div_pos _ hlen
  have hnn : ∀ y ∈ xs.map (fun x => (Real.log x - Real.log (get_scale xs)) ^ 2),
      0 ≤ y := by
    intro y hy
    obtain ⟨x, _, rfl⟩ := List.mem_map.mp hy
    positivity
  rcases lt_or_eq_of_le (list_sum_nonneg hnn) with h | h
  · exact h
  · exfalso
    have hz := list_sum_all_zero hnn h.symm
    have hza : (Real.log a - Real.log (get_scale xs)) ^ 2 = 0 :=
      hz _ (List.mem_map_of_mem _ ha)
    have hzb : (Real.log b - Real.log (get_scale xs)) ^ 2 = 0 :=
      hz _ (List.mem_map_of_mem _ hb)
    have hla : Real.log a = Real.log (get_scale xs) := by
      have := sq_eq_zero_iff.mp hza; linarith
    have hlb : Real.log b = Real.log (get_scale xs) := by
      have := sq_eq_zero_iff.mp hzb; linarith
    exact hab (by
      rw [← Real.exp_log (hpos a ha), ← Real.exp_log (hpos b hb), hla, hlb])

/-- A series with strictly positive population variance has two distinct
members. -/
theorem exists_ne_of_variance_pos {xs : List ℝ} (h : 0 < seriesVariance xs) :
    ∃ a ∈ xs, ∃ b ∈ xs, a ≠ b := by
  by_contra hc
  push_neg at hc
  apply absurd h
  simp only [not_lt]
  rcases xs with _ | ⟨y, t⟩
  · simp [seriesVariance]
  · have hall : ∀ x ∈ (y :: t), x = y := fun x hx => hc x hx y (by simp)
    have hlen : ((y :: t).length : ℝ) ≠ 0 := by
      simp only [List.length_cons]; positivity
    have hmean : seriesMean (y :: t) = y := by
      unfold seriesMean
      rw [list_sum_const hall]
      field_simp
    have hzero : ∀ z ∈ (y :: t).map (fun x => (x - seriesMean (y :: t)) ^ 2),
        z = 0 := by
      intro z hz
      obtain ⟨x, hx, rfl⟩ := List.mem_map.mp hz
      rw [hall x hx, hmean]
      ring
    unfold seriesVariance
    rw [list_sum_const hzero]
    simp

/-- `lognorm_ppf` only evaluates the normal quantile routine at interior
probabilities: two routines agreeing on (0,1) give identical output. -/
theorem lognorm_ppf_congr {f g : ℝ → ℝ} (h : ∀ p, 0 < p → p < 1 → f p = g p)
    (q s loc scale : ℝ) :
    lognorm_ppf f q s loc scale = lognorm_ppf g q s loc scale := by
  unfold lognorm_ppf
  rcases Classical.em (0 < s ∧ 0 < scale) with hargs | hargs
  · rcases Classical.em (q = 0) with hq0 | hq0
    · simp [hargs, hq0]
    · rcases Classical.em (q = 1) with hq1 | hq1
      · simp [hargs, hq0, hq1]
      · rcases Classical.em (0 < q ∧ q < 1) with hq | hq
        · simp [hargs, hq0, hq1, hq, h q hq.1 hq.2]
        · simp [hargs, hq0, hq1, hq]
  · simp [hargs]

/-! ## Maximum-likelihood optimality of the fitted parameters -/

theorem lognormPdf_pos {μ σ x : ℝ} (hx : 0 < x) (hσ : 0 < σ) :
    0 < lognormPdf μ σ x := by
  unfold lognormPdf
  have h2pi : 0 < Real.sqrt (2 * Real.pi) :=
    Real.sqrt_pos.mpr (by positivity)
  exact div_pos (Real.exp_pos _) (mul_pos (mul_pos hx hσ) h2pi)

theorem log_lognormPdf {μ σ x : ℝ} (hx : 0 < x) (hσ : 0 < σ) :
    Real.log (lognormPdf μ σ x) =
      -(Real.log x - μ) ^ 2 / (2 * σ ^ 2) - Real.log x - Real.log σ
        - Real.log (Real.sqrt (2 * Real.pi)) := by
  unfold lognormPdf
  have h2pi : 0 < Real.sqrt (2 * Real.pi) :=
    Real.sqrt_pos.mpr (by positivity)
  have hd : x * σ ≠ 0 := ne_of_gt (mul_pos hx hσ)
  rw [Real.log_div (Real.exp_ne_zero _) (mul_ne_zero hd (ne_of_gt h2pi)),
    Real.log_exp, Real.log_mul hd (ne_of_gt h2pi),
    Real.log_mul (ne_of_gt hx) (ne_of_gt hσ)]
  ring

theorem likelihood_pos {xs : List ℝ} (hpos : ∀ v ∈ xs, 0 < v) {μ σ : ℝ}
    (hσ : 0 < σ) : 0 < likelihood xs μ σ := by
  apply List.prod_pos
  intro b hb
  obtain ⟨x, hx, rfl⟩ := List.mem_map.mp hb
  exact lognormPdf_pos (hpos x hx) hσ

/-- Closed form of the log-likelihood of a positive series. -/
theorem log_likelihood_eq {σ : ℝ} (hσ : 0 < σ) (μ : ℝ) :
    ∀ xs : List ℝ, (∀ v ∈ xs, 0 < v) →
      Real.log (likelihood xs μ σ) =
        -(xs.map (fun x => (Real.log x - μ) ^ 2)).sum / (2 * σ ^ 2)
          - (xs.map Real.log).sum
          - (xs.length : ℝ) * Real.log σ
          - (xs.length : ℝ) * Real.log (Real.sqrt (2 * Real.pi)) := by
  intro xs
  induction xs with
  | nil => intro _; simp [likelihood]
  | cons a t ih =>
    intro hpos
    have hapos : 0 < a := hpos a (by simp)
    have htpos : ∀ v ∈ t, 0 < v := fun v hv => hpos v (by simp [hv])
    have hpdfa : 0 < lognormPdf μ σ a := lognormPdf_pos hapos hσ
    have hprod : 0 < (t.map (lognormPdf μ σ)).prod :=
      likelihood_pos htpos hσ
    unfold likelihood at ih ⊢
    simp only [List.map_cons, List.prod_cons, List.sum_cons, List.length_cons]
    rw [Real.log_mul (ne_of_gt hpdfa) (ne_of_gt hprod), ih htpos,
      log_lognormPdf hapos hσ]
    push_cast
    ring

/-- Shifting the centre of a sum of squared deviations. -/
theorem sq_dev_sum (a b : ℝ) : ∀ ys : List ℝ,
    (ys.map (fun y => (y - a) ^ 2)).sum =
      (ys.map (fun y => (y - b) ^ 2)).sum
        + 2 * (b - a) * (ys.sum - (ys.length : ℝ) * b)
        + (ys.length : ℝ) * (b - a) ^ 2 := by
  intro ys
  induction ys with
  | nil => simp
  | cons y t ih =>
    simp only [List.map_cons, List.sum_cons, List.length_cons]
    rw [ih]
    push_cast
    ring

/-- The mean minimises the sum of squared deviations. -/
theorem sq_dev_mean_le {ys : List ℝ} (hne : ys ≠ []) (a : ℝ) :
    (ys.map (fun y => (y - ys.sum / (ys.length : ℝ)) ^ 2)).sum ≤
      (ys.map (fun y => (y - a) ^ 2)).sum := by
  have hlen : 0 < (ys.length : ℝ) := by
    exact_mod_cast List.length_pos.mpr hne
  have hzero : ys.sum - (ys.length : ℝ) * (ys.sum / (ys.length : ℝ)) = 0 := by
    field_simp
  have h := sq_dev_sum a (ys.sum / (ys.length : ℝ)) ys
  rw [hzero] at h
  nlinarith [mul_nonneg (le_of_lt hlen)
    (sq_nonneg (ys.sum / (ys.length : ℝ) - a))]

/-- The square of the fitted shape is the mean squared log-deviation. -/
theorem get_shape_sq (xs : List ℝ) :
    (get_shape xs) ^ 2 =
      (xs.map (fun x => (Real.log x - logMean xs) ^ 2)).sum / (xs.length : ℝ) := by
  unfold get_shape
  rw [log_get_scale]
  apply Real.sq_sqrt
  apply div_nonneg
  · apply list_sum_nonneg
    intro y hy
    obtain ⟨x, _, rfl⟩ := List.mem_map.mp hy
    positivity
  · positivity

/-- The log-space mean minimises the series' sum of squared log-deviations. -/
theorem log_sq_dev_logMean_le {xs : List ℝ} (hne : xs ≠ []) (μ : ℝ) :
    (xs.map (fun x => (Real.log x - logMean xs) ^ 2)).sum ≤
      (xs.map (fun x => (Real.log x - μ) ^ 2)).sum := by
  have h1 : ∀ b : ℝ, (xs.map (fun x => (Real.log x - b) ^ 2)).sum =
      ((xs.map Real.log).map (fun y => (y - b) ^ 2)).sum := by
    intro b
    rw [List.map_map]
    rfl
  have hne' : xs.map Real.log ≠ [] := by
    simpa using hne
  have hmean : logMean xs =
      (xs.map Real.log).sum / (((xs.map Real.log).length : ℕ) : ℝ) := by
    unfold logMean
    simp
  rw [h1, h1, hmean]
  exact sq_dev_mean_le hne' μ

/-- The fitted parameters `(logMean xs, get_shape xs)` maximise the
log-normal likelihood over all location-0 parameter pairs `(μ, σ)` with
`σ > 0`, whenever the fitted shape is itself positive. -/
theorem likelihood_le_fit {xs : List ℝ} (hne : xs ≠ []) (hpos : ∀ v ∈ xs, 0 < v)
    (hshape : 0 < get_shape xs) (μ σ : ℝ) (hσ : 0 < σ) :
    likelihood xs μ σ ≤ likelihood xs (logMean xs) (get_shape xs) := by
  have hlen : 0 < ((xs.length : ℕ) : ℝ) := by
    exact_mod_cast List.length_pos.mpr hne
  set n : ℝ := ((xs.length : ℕ) : ℝ) with hn
  set m : ℝ := logMean xs with hm
  set s : ℝ := get_shape xs with hs
  have hL : 0 < likelihood xs μ σ := likelihood_pos hpos hσ
  have hLf : 0 < likelihood xs m s := likelihood_pos hpos hshape
  have hlog : Real.log (likelihood xs μ σ) ≤ Real.log (likelihood xs m s) := by
    rw [log_likelihood_eq hσ μ xs hpos, log_likelihood_eq hshape m xs hpos,
      ← hn]
    set SSu := (xs.map (fun x => (Real.log x - μ) ^ 2)).sum with hSSu
    set SSm := (xs.map (fun x => (Real.log x - m) ^ 2)).sum with hSSm0
    have hSSle : SSm ≤ SSu := log_sq_dev_logMean_le hne μ
    have hSSm : SSm = n * s ^ 2 := by
      have h := get_shape_sq xs
      rw [← hSSm0, ← hs, ← hn] at h
      field_simp at h
      linarith [h]
    have ht : (0:ℝ) < s ^ 2 / σ ^ 2 := by positivity
    have hkey : Real.log (s ^ 2 / σ ^ 2) ≤ s ^ 2 / σ ^ 2 - 1 :=
      Real.log_le_sub_one_of_pos ht
    have hlogt : Real.log (s ^ 2 / σ ^ 2) =
        2 * Real.log s - 2 * Real.log σ := by
      rw [Real.log_div (by positivity) (by positivity), Real.log_pow,
        Real.log_pow]
      push_cast
      ring
    rw [hlogt] at hkey
    have hmult : (n / 2) * (2 * Real.log s - 2 * Real.log σ) ≤
        (n / 2) * (s ^ 2 / σ ^ 2 - 1) :=
      mul_le_mul_of_nonneg_left hkey (by positivity)
    have e1 : SSm / (2 * s ^ 2) = n / 2 := by
      rw [hSSm]
      field_simp
      ring
    have e2 : SSm / (2 * σ ^ 2) = (n / 2) * (s ^ 2 / σ ^ 2) := by
      rw [hSSm]
      field_simp
    have h2sig : (0:ℝ) < 2 * σ ^ 2 := by positivity
    have h4 : SSm / (2 * σ ^ 2) ≤ SSu / (2 * σ ^ 2) :=
      div_le_div_of_nonneg_right hSSle h2sig.le
    have key2 : n * Real.log s - n * Real.log σ ≤ SSm / (2 * σ ^ 2) - n / 2 := by
      rw [e2]
      linarith [hmult]
    rw [neg_div, neg_div]
    linarith [h4, key2, e1]
  have := Real.exp_le_exp.mpr hlog
  rwa [Real.exp_log hL, Real.exp_log hLf] at this

/-! ## Branch behaviour of the quantile routine -/

theorem lognorm_ppf_interior {f : ℝ → ℝ} {q s loc scale : ℝ}
    (hargs : 0 < s ∧ 0 < scale) (hq0 : 0 < q) (hq1 : q < 1) :
    lognorm_ppf f q s loc scale = .fin (loc + scale * Real.exp (s * f q)) := by
  unfold lognorm_ppf
  rw [if_neg (not_not_intro hargs), if_neg (ne_of_gt hq0), if_neg (ne_of_lt hq1),
    if_pos ⟨hq0, hq1⟩]

theorem lognorm_ppf_one {f : ℝ → ℝ} {s loc scale : ℝ}
    (hargs : 0 < s ∧ 0 < scale) :
    lognorm_ppf f 1 s loc scale = .pinf := by
  unfold lognorm_ppf
  rw [if_neg (not_not_intro hargs), if_neg one_ne_zero, if_pos rfl]

theorem lognorm_ppf_nan_of_bad {f : ℝ → ℝ} {q s loc scale : ℝ}
    (h : ¬(0 < s ∧ 0 < scale)) :
    lognorm_ppf f q s loc scale = .nan := by
  unfold lognorm_ppf
  rw [if_pos h]

/-- `phi0` has the two properties assumed of the normal quantile routine. -/
theorem isNormQuantile_phi0 : IsNormQuantile phi0 :=
  ⟨fun a _ b _ h => sub_lt_sub_right h _, by norm_num [phi0]⟩

/-! ## Claim theorems -/

/-- C1: for every non-empty strictly positive series and confidence level in
(0,1), the two-sided mode returns the pair of inverse-CDF values of the
fitted distribution at probabilities `alpha/2` and `1 - alpha/2`, where
`alpha = 1 - c` and the fitted distribution is the two-parameter log-normal
with location fixed at 0, shape `get_shape xs` and scale
`exp (logMean xs)`.  The fit is the maximum-likelihood fit: whenever the
fitted shape is positive (that is, whenever the likelihood has a maximiser
at all), the fitted parameter pair `(logMean xs, get_shape xs)` dominates
every location-0 parameter pair `(μ, σ)` with `σ > 0`. -/
theorem two_sided_fits_mle_quantiles (ndtri : ℝ → ℝ) (xs : List ℝ) (c : ℝ)
    (hne : xs ≠ []) (hpos : ∀ v ∈ xs, 0 < v) (hc0 : 0 < c) (hc1 : c < 1) :
    _predict_next_video_views ndtri xs c "two-sided" =
      .pair (lognorm_ppf ndtri ((1 - c) / 2) (get_shape xs) 0 (get_scale xs))
        (lognorm_ppf ndtri (1 - (1 - c) / 2) (get_shape xs) 0 (get_scale xs)) ∧
    get_scale xs = Real.exp (logMean xs) ∧
    (0 < get_shape xs → ∀ μ σ, 0 < σ →
      likelihood xs μ σ ≤ likelihood xs (logMean xs) (get_shape xs)) := by
  refine ⟨predict_two_sided_eq ndtri xs c hne hpos, rfl, ?_⟩
  intro hshape μ σ hσ
  exact likelihood_le_fit hne hpos hshape μ σ hσ

/-- Witness for C1 at the series `[1]` and confidence level `1/2`. -/
theorem two_sided_fits_mle_quantiles_w :
    _predict_next_video_views phi0 [1] (1/2) "two-sided" =
      .pair (lognorm_ppf phi0 ((1 - 1/2) / 2) (get_shape [1]) 0 (get_scale [1]))
        (lognorm_ppf phi0 (1 - (1 - 1/2) / 2) (get_shape [1]) 0 (get_scale [1])) ∧
    get_scale [1] = Real.exp (logMean [1]) ∧
    (0 < get_shape [1] → ∀ μ σ, 0 < σ →
      likelihood [1] μ σ ≤ likelihood [1] (logMean [1]) (get_shape [1])) :=
  two_sided_fits_mle_quantiles phi0 [1] (1/2) (by simp) (by norm_num)
    (by norm_num) (by norm_num)

/-- C3: for every valid series, confidence level in (0,1) and recognised
mode, the call returns a pair of bounds, and whenever both bounds are finite
the lower one is at most the upper one. -/
theorem returned_bounds_ordered (ndtri : ℝ → ℝ) (hq : IsNormQuantile ndtri)
    (xs : List ℝ) (c : ℝ) (m : String) (hne : xs ≠ []) (hpos : ∀ v ∈ xs, 0 < v)
    (hc0 : 0 < c) (hc1 : c < 1)
    (hm : m = "lower" ∨ m = "upper" ∨ m = "two-sided") :
    ∃ lo hi, _predict_next_video_views ndtri xs c m = .pair lo hi ∧
      ∀ a b, lo = .fin a → hi = .fin b → a ≤ b := by
  rcases hm with rfl | rfl | rfl
  · refine ⟨_, _, predict_lower_eq ndtri xs c hne hpos, ?_⟩
    intro a b _ hb
    exact XReal.noConfusion hb
  · refine ⟨_, _, predict_upper_eq ndtri xs c hne hpos, ?_⟩
    intro a b ha _
    exact XReal.noConfusion ha
  · refine ⟨_, _, predict_two_sided_eq ndtri xs c hne hpos, ?_⟩
    intro a b ha hb
    rcases Classical.em (0 < get_shape xs ∧ 0 < get_scale xs) with hargs | hargs
    · have hlo1 : 0 < (1 - c) / 2 := by linarith
      have hlo2 : (1 - c) / 2 < 1 := by linarith
      have hhi1 : 0 < 1 - (1 - c) / 2 := by linarith
      have hhi2 : 1 - (1 - c) / 2 < 1 := by linarith
      rw [lognorm_ppf_interior hargs hlo1 hlo2] at ha
      rw [lognorm_ppf_interior hargs hhi1 hhi2] at hb
      have ha' : a = 0 + get_scale xs *
          Real.exp (get_shape xs * ndtri ((1 - c) / 2)) := by
        injection ha.symm
      have hb' : b = 0 + get_scale xs *
          Real.exp (get_shape xs * ndtri (1 - (1 - c) / 2)) := by
        injection hb.symm
      have hqlt : ndtri ((1 - c) / 2) ≤ ndtri (1 - (1 - c) / 2) := by
        apply le_of_lt
        exact hq.1 (Set.mem_Ioo.mpr ⟨hlo1, hlo2⟩) (Set.mem_Ioo.mpr ⟨hhi1, hhi2⟩)
          (by linarith)
      have hmul : get_shape xs * ndtri ((1 - c) / 2) ≤
          get_shape xs * ndtri (1 - (1 - c) / 2) :=
        mul_le_mul_of_nonneg_left hqlt (get_shape_nonneg xs)
      have hexp : Real.exp (get_shape xs * ndtri ((1 - c) / 2)) ≤
          Real.exp (get_shape xs * ndtri (1 - (1 - c) / 2)) :=
        Real.exp_le_exp.mpr hmul
      rw [ha', hb']
      have := mul_le_mul_of_nonneg_left hexp (le_of_lt (get_scale_pos xs))
      linarith
    · rw [lognorm_ppf_nan_of_bad hargs] at ha
      exact XReal.noConfusion ha

/-- Witness for C3 at the series `[1]`, confidence level `1/2`, mode
`"lower"`. -/
theorem returned_bounds_ordered_w :
    ∃ lo hi, _predict_next_video_views phi0 [1] (1/2) "lower" = .pair lo hi ∧
      ∀ a b, lo = .fin a → hi = .fin b → a ≤ b :=
  returned_bounds_ordered phi0 isNormQuantile_phi0 [1] (1/2) "lower"
    (by simp) (by norm_num) (by norm_num) (by norm_num) (Or.inl rfl)

/-- C5: for a fixed valid series with positive variance and two confidence
levels `c1 < c2` in (0,1), the two-sided interval at `c2` contains the one
at `c1` (lower bound decreases, upper bound increases) and is strictly
wider. -/
theorem two_sided_interval_nested (ndtri : ℝ → ℝ) (hq : IsNormQuantile ndtri)
    (xs : List ℝ) (c1 c2 : ℝ) (hne : xs ≠ []) (hpos : ∀ v ∈ xs, 0 < v)
    (hvar : 0 < seriesVariance xs) (hc1 : 0 < c1) (hlt : c1 < c2) (hc2 : c2 < 1) :
    ∃ l1 u1 l2 u2 : ℝ,
      _predict_next_video_views ndtri xs c1 "two-sided" =
        .pair (.fin l1) (.fin u1) ∧
      _predict_next_video_views ndtri xs c2 "two-sided" =
        .pair (.fin l2) (.fin u2) ∧
      l2 ≤ l1 ∧ u1 ≤ u2 ∧ u1 - l1 < u2 - l2 := by
  obtain ⟨a, ha, b, hb, hab⟩ := exists_ne_of_variance_pos hvar
  have hshape : 0 < get_shape xs := get_shape_pos ha hb hab hpos
  have hscale : 0 < get_scale xs := get_scale_pos xs
  have hargs : 0 < get_shape xs ∧ 0 < get_scale xs := ⟨hshape, hscale⟩
  have h1lo1 : 0 < (1 - c1) / 2 := by linarith
  have h1lo2 : (1 - c1) / 2 < 1 := by linarith
  have h1hi1 : 0 < 1 - (1 - c1) / 2 := by linarith
  have h1hi2 : 1 - (1 - c1) / 2 < 1 := by linarith
  have h2lo1 : 0 < (1 - c2) / 2 := by linarith
  have h2lo2 : (1 - c2) / 2 < 1 := by linarith
  have h2hi1 : 0 < 1 - (1 - c2) / 2 := by linarith
  have h2hi2 : 1 - (1 - c2) / 2 < 1 := by linarith
  refine ⟨0 + get_scale xs * Real.exp (get_shape xs * ndtri ((1 - c1) / 2)),
    0 + get_scale xs * Real.exp (get_shape xs * ndtri (1 - (1 - c1) / 2)),
    0 + get_scale xs * Real.exp (get_shape xs * ndtri ((1 - c2) / 2)),
    0 + get_scale xs * Real.exp (get_shape xs * ndtri (1 - (1 - c2) / 2)),
    ?_, ?_, ?_, ?_, ?_⟩
  · rw [predict_two_sided_eq ndtri xs c1 hne hpos,
      lognorm_ppf_interior hargs h1lo1 h1lo2,
      lognorm_ppf_interior hargs h1hi1 h1hi2]
  · rw [predict_two_sided_eq ndtri xs c2 hne hpos,
      lognorm_ppf_interior hargs h2lo1 h2lo2,
      lognorm_ppf_interior hargs h2hi1 h2hi2]
  all_goals {
    have hqlo : ndtri ((1 - c2) / 2) < ndtri ((1 - c1) / 2) :=
      hq.1 (Set.mem_Ioo.mpr ⟨h2lo1, h2lo2⟩) (Set.mem_Ioo.mpr ⟨h1lo1, h1lo2⟩)
        (by linarith)
    have hqhi : ndtri (1 - (1 - c1) / 2) < ndtri (1 - (1 - c2) / 2) :=
      hq.1 (Set.mem_Ioo.mpr ⟨h1hi1, h1hi2⟩) (Set.mem_Ioo.mpr ⟨h2hi1, h2hi2⟩)
        (by linarith)
    have hmlo : get_shape xs * ndtri ((1 - c2) / 2) <
        get_shape xs * ndtri ((1 - c1) / 2) :=
      mul_lt_mul_of_pos_left hqlo hshape
    have hmhi : get_shape xs * ndtri (1 - (1 - c1) / 2) <
        get_shape xs * ndtri (1 - (1 - c2) / 2) :=
      mul_lt_mul_of_pos_left hqhi hshape
    have helo : Real.exp (get_shape xs * ndtri ((1 - c2) / 2)) <
        Real.exp (get_shape xs * ndtri ((1 - c1) / 2)) :=
      Real.exp_lt_exp.mpr hmlo
    have hehi : Real.exp (get_shape xs * ndtri (1 - (1 - c1) / 2)) <
        Real.exp (get_shape xs * ndtri (1 - (1 - c2) / 2)) :=
      Real.exp_lt_exp.mpr hmhi
    have hslo := mul_lt_mul_of_pos_left helo hscale
    have hshi := mul_lt_mul_of_pos_left hehi hscale
    linarith
  }

/-- Witness for C5 at the series `[1, 2]` (variance 1/4) with confidence
levels 1/2 < 3/4. -/
theorem two_sided_interval_nested_w :
    ∃ l1 u1 l2 u2 : ℝ,
      _predict_next_video_views phi0 [1, 2] (1/2) "two-sided" =
        .pair (.fin l1) (.fin u1) ∧
      _predict_next_video_views phi0 [1, 2] (3/4) "two-sided" =
        .pair (.fin l2) (.fin u2) ∧
      l2 ≤ l1 ∧ u1 ≤ u2 ∧ u1 - l1 < u2 - l2 :=
  two_sided_interval_nested phi0 isNormQuantile_phi0 [1, 2] (1/2) (3/4)
    (by simp) (by norm_num)
    (by norm_num [seriesVariance, seriesMean])
    (by norm_num) (by norm_num) (by norm_num)

/-- C9: for the series [500, 1000, 2000, 4000, 8000] at confidence level
0.90 in mode `"lower"`, the call returns `(L, +∞)` with `L` a finite strictly
positive real strictly below the fitted median (the fitted scale parameter
`get_scale`, which is the median of a log-normal with location 0). -/
theorem lower_mode_concrete_below_median (ndtri : ℝ → ℝ)
    (hq : IsNormQuantile ndtri) :
    ∃ L : ℝ,
      _predict_next_video_views ndtri [500, 1000, 2000, 4000, 8000] (9/10)
          "lower" = .pair (.fin L) .pinf ∧
      0 < L ∧ L < get_scale [500, 1000, 2000, 4000, 8000] := by
  have hne : ([500, 1000, 2000, 4000, 8000] : List ℝ) ≠ [] := by simp
  have hpos : ∀ v ∈ ([500, 1000, 2000, 4000, 8000] : List ℝ), 0 < v := by
    intro v hv
    fin_cases hv <;> norm_num
  have h500 : (500 : ℝ) ∈ ([500, 1000, 2000, 4000, 8000] : List ℝ) := by simp
  have h1000 : (1000 : ℝ) ∈ ([500, 1000, 2000, 4000, 8000] : List ℝ) := by simp
  have hshape : 0 < get_shape [500, 1000, 2000, 4000, 8000] :=
    get_shape_pos h500 h1000 (by norm_num) hpos
  have hscale : 0 < get_scale [500, 1000, 2000, 4000, 8000] :=
    get_scale_pos _
  rw [predict_lower_eq ndtri _ _ hne hpos,
    lognorm_ppf_interior ⟨hshape, hscale⟩ (by norm_num) (by norm_num)]
  refine ⟨_, rfl, ?_, ?_⟩
  · have := mul_pos hscale
      (Real.exp_pos (get_shape [500, 1000, 2000, 4000, 8000] * ndtri (1 - 9/10)))
    linarith
  · have hf : ndtri (1 - 9/10) < 0 := by
      have hmono := hq.1 (Set.mem_Ioo.mpr ⟨by norm_num, by norm_num⟩)
        (Set.mem_Ioo.mpr ⟨by norm_num, by norm_num⟩)
        (show (1 : ℝ) - 9/10 < 1/2 by norm_num)
      rw [hq.2] at hmono
      exact hmono
    have hneg : get_shape [500, 1000, 2000, 4000, 8000] * ndtri (1 - 9/10) < 0 :=
      mul_neg_of_pos_of_neg hshape hf
    have hexp : Real.exp (get_shape [500, 1000, 2000, 4000, 8000] *
        ndtri (1 - 9/10)) < 1 := by
      calc Real.exp (get_shape [500, 1000, 2000, 4000, 8000] * ndtri (1 - 9/10))
          < Real.exp 0 := Real.exp_lt_exp.mpr hneg
        _ = 1 := Real.exp_zero
    have := mul_lt_mul_of_pos_left hexp hscale
    linarith

/-- Witness for C9 with the quantile-routine stand-in `phi0`. -/
theorem lower_mode_concrete_below_median_w :
    ∃ L : ℝ,
      _predict_next_video_views phi0 [500, 1000, 2000, 4000, 8000] (9/10)
          "lower" = .pair (.fin L) .pinf ∧
      0 < L ∧ L < get_scale [500, 1000, 2000, 4000, 8000] :=
  lower_mode_concrete_below_median phi0 isNormQuantile_phi0

/-! ## Concrete-series computations -/

theorem logMean_pair : logMean [1, Real.exp 2] = 1 := by
  unfold logMean
  norm_num [Real.log_exp]

theorem get_scale_pair : get_scale [1, Real.exp 2] = Real.exp 1 := by
  unfold get_scale
  rw [logMean_pair]

theorem get_shape_pair : get_shape [1, Real.exp 2] = 1 := by
  unfold get_shape
  rw [log_get_scale, logMean_pair]
  norm_num [Real.log_exp, Real.sqrt_one]

theorem logMean_const : logMean [1000, 1000, 1000, 1000] = Real.log 1000 := by
  unfold logMean
  simp only [List.map_cons, List.map_nil, List.sum_cons, List.sum_nil,
    List.length_cons, List.length_nil]
  push_cast
  ring

theorem get_shape_const : get_shape [1000, 1000, 1000, 1000] = 0 := by
  unfold get_shape
  rw [log_get_scale, logMean_const]
  simp

theorem const_bad_args :
    ¬(0 < get_shape [1000, 1000, 1000, 1000] ∧
      0 < get_scale [1000, 1000, 1000, 1000]) := by
  rw [get_shape_const]
  simp

/-- C6 counterexample: the claim that an out-of-range confidence level always
produces an infinite or NaN bound is false: at `confidenceLevel = 0` with
mode `"two-sided"` both quantiles are taken at probability 1/2, so both
bounds are finite (equal to the fitted median) for any quantile routine —
the branch reached does not depend on which routine instantiates it. -/
theorem out_of_range_finite_bounds_cex : ¬ outOfRangeYieldsNonFinite := by
  intro h
  have hpos : ∀ v ∈ ([1, Real.exp 2] : List ℝ), 0 < v := by
    intro v hv
    fin_cases hv
    · norm_num
    · exact Real.exp_pos 2
  obtain ⟨-, lo, hi, heq, hbad⟩ :=
    h phi0 isNormQuantile_phi0 [1, Real.exp 2] 0 "two-sided" (by simp) hpos
      (Or.inl le_rfl) (Or.inr (Or.inr rfl))
  have e0 : ((1 : ℝ) - 0) / 2 = 1/2 := by norm_num
  have e1 : (1 : ℝ) - 1/2 = 1/2 := by norm_num
  have hcomp : _predict_next_video_views phi0 [1, Real.exp 2] 0 "two-sided" =
      .pair (.fin (Real.exp 1)) (.fin (Real.exp 1)) := by
    rw [predict_two_sided_eq phi0 _ _ (by simp) hpos, get_shape_pair,
      get_scale_pair, e0, e1,
      lognorm_ppf_interior ⟨one_pos, Real.exp_pos 1⟩ (by norm_num) (by norm_num)]
    norm_num [phi0]
  rw [hcomp] at heq
  injection heq with h1 h2
  rcases hbad with hb | hb
  · rw [← h1] at hb
    exact hb trivial
  · rw [← h2] at hb
    exact hb trivial

/-- C6 amended: the estimator performs no validation of `confidenceLevel`
whatsoever — no value of it can produce a `ValueError` on a valid series —
and the value flows into the quantile routine.  At `confidenceLevel = 1`
the two-sided call produces a non-finite upper bound, but at
`confidenceLevel = 0` the two-sided call produces two finite bounds (both
taken at probability 1/2) whenever the fitted shape is positive. -/
theorem no_confidence_level_validation (ndtri : ℝ → ℝ) (xs : List ℝ) (c : ℝ)
    (m : String) (hne : xs ≠ []) (hpos : ∀ v ∈ xs, 0 < v) :
    (∀ msg, _predict_next_video_views ndtri xs c m ≠ .valueError msg) ∧
    (∃ lo hi, _predict_next_video_views ndtri xs 1 "two-sided" = .pair lo hi ∧
      ¬ hi.isFinite) ∧
    (0 < get_shape xs →
      ∃ a b : ℝ, _predict_next_video_views ndtri xs 0 "two-sided" =
        .pair (.fin a) (.fin b)) := by
  refine ⟨?_, ?_, ?_⟩
  · intro msg hcontra
    rcases Classical.em (m = "lower") with h1 | h1
    · rw [h1, predict_lower_eq ndtri xs c hne hpos] at hcontra
      exact PredictResult.noConfusion hcontra
    · rcases Classical.em (m = "upper") with h2 | h2
      · rw [h2, predict_upper_eq ndtri xs c hne hpos] at hcontra
        exact PredictResult.noConfusion hcontra
      · rcases Classical.em (m = "two-sided") with h3 | h3
        · rw [h3, predict_two_sided_eq ndtri xs c hne hpos] at hcontra
          exact PredictResult.noConfusion hcontra
        · rw [predict_none_eq ndtri xs c m hne hpos h1 h2 h3] at hcontra
          exact PredictResult.noConfusion hcontra
  · have e0 : ((1 : ℝ) - 1) / 2 = 0 := by norm_num
    have e1 : (1 : ℝ) - 0 = 1 := by norm_num
    rw [predict_two_sided_eq ndtri xs 1 hne hpos, e0, e1]
    rcases Classical.em (0 < get_shape xs ∧ 0 < get_scale xs) with hargs | hargs
    · rw [lognorm_ppf_one hargs]
      exact ⟨_, .pinf, rfl, fun hc => hc⟩
    · rw [lognorm_ppf_nan_of_bad hargs, lognorm_ppf_nan_of_bad hargs]
      exact ⟨.nan, .nan, rfl, fun hc => hc⟩
  · intro hshape
    have e0 : ((1 : ℝ) - 0) / 2 = 1/2 := by norm_num
    have e1 : (1 : ℝ) - 1/2 = 1/2 := by norm_num
    rw [predict_two_sided_eq ndtri xs 0 hne hpos, e0, e1,
      lognorm_ppf_interior ⟨hshape, get_scale_pos xs⟩ (by norm_num) (by norm_num)]
    exact ⟨_, _, rfl⟩

/-- Witness for the amended C6 at an out-of-range confidence level `c = 5`
and an arbitrary mode string. -/
theorem no_confidence_level_validation_w :
    (∀ msg, _predict_next_video_views phi0 [1, 2] 5 "median" ≠ .valueError msg) ∧
    (∃ lo hi, _predict_next_video_views phi0 [1, 2] 1 "two-sided" = .pair lo hi ∧
      ¬ hi.isFinite) ∧
    (0 < get_shape [1, 2] →
      ∃ a b : ℝ, _predict_next_video_views phi0 [1, 2] 0 "two-sided" =
        .pair (.fin a) (.fin b)) :=
  no_confidence_level_validation phi0 [1, 2] 5 "median" (by simp) (by norm_num)

/-- C8 counterexample: for the constant series [1000, 1000, 1000, 1000] at
confidence level 0.90 in two-sided mode the returned bounds do not collapse
to ≈1000 — the fitted shape is exactly 0, the quantile routine's argument
check rejects it, and both bounds are NaN (the NaN branch never consults the
quantile routine, so the instantiation is irrelevant). -/
theorem constant_series_not_collapsing :
    ¬ collapsesTo
      (_predict_next_video_views phi0 [1000, 1000, 1000, 1000] (9/10)
        "two-sided") 1000 := by
  intro hcol
  obtain ⟨a, b, heq, -, -⟩ := hcol
  have hcomp : _predict_next_video_views phi0 [1000, 1000, 1000, 1000] (9/10)
      "two-sided" = .pair .nan .nan := by
    rw [predict_two_sided_eq phi0 _ _ (by simp)
        (by intro v hv; fin_cases hv <;> norm_num),
      lognorm_ppf_nan_of_bad const_bad_args,
      lognorm_ppf_nan_of_bad const_bad_args]
  rw [hcomp] at heq
  injection heq with h1 h2
  exact XReal.noConfusion h1

/-- C8 amended: on the constant series the fitted shape is exactly 0 (zero
variance in log-space, as the claim says), but both returned bounds are NaN
rather than ≈1000, because scipy's `ppf` argument check rejects a
non-positive shape. -/
theorem constant_series_nan_bounds (ndtri : ℝ → ℝ) :
    get_shape [1000, 1000, 1000, 1000] = 0 ∧
    _predict_next_video_views ndtri [1000, 1000, 1000, 1000] (9/10)
      "two-sided" = .pair .nan .nan := by
  refine ⟨get_shape_const, ?_⟩
  rw [predict_two_sided_eq ndtri _ _ (by simp)
      (by intro v hv; fin_cases hv <;> norm_num),
    lognorm_ppf_nan_of_bad const_bad_args,
    lognorm_ppf_nan_of_bad const_bad_args]

/-- C2: a call with an empty series, or a series containing an element ≤ 0,
returns a raised `ValueError` (the validation sits before the fit and the
quantile computation in the embedded control flow), and no pair of bounds is
ever produced on that path, for every confidence level and mode. -/
theorem invalid_input_value_error (ndtri : ℝ → ℝ) (xs : List ℝ) (c : ℝ)
    (m : String) (h : xs = [] ∨ ∃ v ∈ xs, v ≤ 0) :
    (∃ msg, _predict_next_video_views ndtri xs c m = .valueError msg) ∧
    ∀ lo hi, _predict_next_video_views ndtri xs c m ≠ .pair lo hi := by
  have hmain : ∃ msg, _predict_next_video_views ndtri xs c m = .valueError msg := by
    rcases h with h | h
    · exact ⟨"Historical views list cannot be empty",
        by simp [_predict_next_video_views, h]⟩
    · rcases Classical.em (xs = []) with he | he
      · exact ⟨"Historical views list cannot be empty",
          by simp [_predict_next_video_views, he]⟩
      · exact ⟨"All view counts must be positive to fit a log-normal",
          by simp [_predict_next_video_views, he, h]⟩
  obtain ⟨msg, hmsg⟩ := hmain
  refine ⟨⟨msg, hmsg⟩, ?_⟩
  intro lo hi hpair
  rw [hmsg] at hpair
  exact PredictResult.noConfusion hpair

/-- Witness for C2: the empty series with the default arguments. -/
theorem invalid_input_value_error_w :
    (∃ msg, _predict_next_video_views phi0 [] (9/10) "two-sided" = .valueError msg) ∧
    ∀ lo hi, _predict_next_video_views phi0 [] (9/10) "two-sided" ≠ .pair lo hi :=
  invalid_input_value_error phi0 [] (9/10) "two-sided" (Or.inl rfl)

/-- C4: for every valid series and every confidence level, mode `"lower"`
returns the pair (quantile at `alpha = 1 - c`, +∞) — the upper bound is
always +∞ — and mode `"upper"` returns (-∞, quantile at `c`) — the lower
bound is always -∞.  The quantiles are those of the fitted distribution
(shape `get_shape xs`, location 0, scale `get_scale xs`). -/
theorem one_sided_modes_infinite (ndtri : ℝ → ℝ) (xs : List ℝ) (c : ℝ)
    (hne : xs ≠ []) (hpos : ∀ v ∈ xs, 0 < v) :
    _predict_next_video_views ndtri xs c "lower" =
      .pair (lognorm_ppf ndtri (1 - c) (get_shape xs) 0 (get_scale xs)) .pinf ∧
    _predict_next_video_views ndtri xs c "upper" =
      .pair .ninf (lognorm_ppf ndtri c (get_shape xs) 0 (get_scale xs)) :=
  ⟨predict_lower_eq ndtri xs c hne hpos, predict_upper_eq ndtri xs c hne hpos⟩

/-- Witness for C4 at the series `[1]` and confidence level `1/2`. -/
theorem one_sided_modes_infinite_w :
    _predict_next_video_views phi0 [1] (1/2) "lower" =
      .pair (lognorm_ppf phi0 (1 - 1/2) (get_shape [1]) 0 (get_scale [1])) .pinf ∧
    _predict_next_video_views phi0 [1] (1/2) "upper" =
      .pair .ninf (lognorm_ppf phi0 (1/2) (get_shape [1]) 0 (get_scale [1])) :=
  one_sided_modes_infinite phi0 [1] (1/2) (by simp) (by norm_num)

/-- C7: the estimator is deterministic and pure — two calls on identical
inputs agree, and the output depends on nothing but the arguments: any two
normal-quantile routines that agree on the open interval (0,1) (the only
points at which the routine is consulted) produce identical results. -/
theorem estimator_deterministic_pure (ndtri ndtri' : ℝ → ℝ) (xs : List ℝ)
    (c : ℝ) (m : String) (h : ∀ p, 0 < p → p < 1 → ndtri p = ndtri' p) :
    _predict_next_video_views ndtri xs c m = _predict_next_video_views ndtri xs c m ∧
    _predict_next_video_views ndtri xs c m = _predict_next_video_views ndtri' xs c m := by
  refine ⟨rfl, ?_⟩
  simp only [_predict_next_video_views, lognorm_ppf_congr h]

/-- Witness for C7: `phi0` and `phi1` differ outside (0,1) but agree on it. -/
theorem estimator_deterministic_pure_w :
    _predict_next_video_views phi0 [2] (3/4) "two-sided" =
      _predict_next_video_views phi0 [2] (3/4) "two-sided" ∧
    _predict_next_video_views phi0 [2] (3/4) "two-sided" =
      _predict_next_video_views phi1 [2] (3/4) "two-sided" :=
  estimator_deterministic_pure phi0 phi1 [2] (3/4) "two-sided"
    (fun p h1 h2 => by simp [phi0, phi1, h1, h2])

/-- C10: for a valid positive series and an `interval_type` outside the three
recognised literals, no branch fires: the function raises nothing, returns no
pair, and control falls off the end — the result is Python's `None`. -/
theorem unknown_mode_returns_none (ndtri : ℝ → ℝ) :
    _predict_next_video_views ndtri [1] (9/10) "median" = .nonePy :=
  predict_none_eq ndtri [1] (9/10) "median" (by simp) (by norm_num)
    (by simp) (by simp) (by simp)

end
